import Mathlib

/-!
Shallow embedding of `file_finder.py` (iMessage-to-Gmail file finder).

The source locates a chat database and attachment files across four storage
layouts: the live native store, a relocated copy, a legacy `Manifest.mbdb`
binary backup, and a modern `Manifest.db` SQLite backup.

Modelling conventions:
* Python `bytes` buffers are `List Nat` (each element a byte value).
* Python exceptions are the error cases of `Except Err`; an `IndexError`
  raised by out-of-range indexing (`data[offset]`, `f[0]`) is `Err.truncated`,
  the manifest-magic check failure is `Err.invalidFormat`, and a
  `UnicodeDecodeError` from `bytes.decode` is `Err.invalidEncoding`.
  `Err.impossible` marks fuel exhaustion of bounded loops; lemmas below show
  the fuel bounds chosen make this case unreachable, so the models have the
  same observable behaviour as the unbounded Python loops.
* Python dicts are association lists with dict update semantics
  (`assocUpdate` replaces the value of an existing key in place, appends a
  fresh key at the end) and first-match lookup (`assocGet`); under update
  semantics keys stay unique, so this is exactly dict behaviour, including
  insertion-order iteration.
* External capabilities of the Python standard library are abstract function
  parameters: `expand` models `os.path.expanduser`, `dec` models
  `bytes.decode('utf-8')` (`none` = decode failure), `sha1` models
  `hashlib.sha1(x.encode()).hexdigest()`, and `isfile` models
  `os.path.isfile`.
* Python strings are Lean `String`s; slicing is done on the character list
  (`String.data`), which matches Python's code-point indexing.
-/

/-- Error kinds arising in the embedded code (see module docstring). -/
inductive Err
  | invalidFormat
  | truncated
  | invalidEncoding
  | impossible
deriving DecidableEq, Repr

/-- First-match association-list lookup; models Python `d.get(k)` / `d[k]`
for dicts kept in `assocUpdate` form (keys unique). -/
def assocGet {α β : Type} [DecidableEq α] (l : List (α × β)) (k : α) : Option β :=
  (l.find? (fun p => decide (p.1 = k))).map (fun p => p.2)

/-- Dict update `d[k] = v`: replace an existing key's value in place,
otherwise append the fresh binding at the end (insertion order). -/
def assocUpdate {α β : Type} [DecidableEq α] (l : List (α × β)) (k : α) (v : β) :
    List (α × β) :=
  if l.any (fun p => decide (p.1 = k)) then
    l.map (fun p => if p.1 = k then (k, v) else p)
  else
    l ++ [(k, v)]

theorem assocGet_nil {α β : Type} [DecidableEq α] (k : α) :
    assocGet ([] : List (α × β)) k = none := rfl

theorem assocGet_cons {α β : Type} [DecidableEq α] (p : α × β) (l : List (α × β)) (k : α) :
    assocGet (p :: l) k = if p.1 = k then some p.2 else assocGet l k := by
  by_cases h : p.1 = k
  · unfold assocGet
    rw [List.find?_cons_of_pos _ (by simpa using h)]
    simp [h]
  · unfold assocGet
    rw [List.find?_cons_of_neg _ (by simpa using h)]
    simp [h]

theorem assocGet_map_upd_self {α β : Type} [DecidableEq α]
    (l : List (α × β)) (k : α) (v : β)
    (hany : l.any (fun p => decide (p.1 = k)) = true) :
    assocGet (l.map (fun p => if p.1 = k then (k, v) else p)) k = some v := by
  induction l with
  | nil => simp at hany
  | cons hd tl ih =>
    by_cases h : hd.1 = k
    · simp [h, assocGet_cons]
    · simp only [List.any_cons, decide_eq_true_eq, h, Bool.false_or, false_or] at hany
      simp only [List.map_cons, if_neg h, assocGet_cons, h, if_false]
      exact ih hany

theorem assocGet_map_upd_ne {α β : Type} [DecidableEq α]
    (l : List (α × β)) (k k' : α) (v : β) (h : k' ≠ k) :
    assocGet (l.map (fun p => if p.1 = k then (k, v) else p)) k' = assocGet l k' := by
  induction l with
  | nil => rfl
  | cons hd tl ih =>
    by_cases hh : hd.1 = k
    · simp only [List.map_cons, if_pos hh, assocGet_cons]
      rw [if_neg (fun he : k = k' => h he.symm),
        if_neg (fun he : hd.1 = k' => h (hh ▸ he).symm)]
      exact ih
    · simp only [List.map_cons, if_neg hh, assocGet_cons]
      rw [ih]

theorem assocGet_update_self {α β : Type} [DecidableEq α]
    (l : List (α × β)) (k : α) (v : β) :
    assocGet (assocUpdate l k v) k = some v := by
  unfold assocUpdate
  split
  · exact assocGet_map_upd_self l k v (by assumption)
  · induction l with
    | nil => simp [assocGet_cons]
    | cons hd tl ih =>
      rename_i hany
      simp only [List.any_cons, Bool.or_eq_true, decide_eq_true_eq, not_or] at hany
      simp only [List.cons_append, assocGet_cons, if_neg hany.1]
      exact ih (by simpa using hany.2)

theorem assocGet_update_ne {α β : Type} [DecidableEq α]
    (l : List (α × β)) (k k' : α) (v : β) (h : k' ≠ k) :
    assocGet (assocUpdate l k v) k' = assocGet l k' := by
  unfold assocUpdate
  split
  · exact assocGet_map_upd_ne l k k' v h
  · induction l with
    | nil =>
      show assocGet [(k, v)] k' = assocGet [] k'
      rw [assocGet_cons, if_neg (fun he : (k, v).1 = k' => h he.symm)]
    | cons hd tl ih =>
      rename_i hany
      simp only [List.any_cons, Bool.or_eq_true, decide_eq_true_eq, not_or] at hany
      simp only [List.cons_append, assocGet_cons]
      rw [ih (by simpa using hany.2)]

theorem mem_assocUpdate {α β : Type} [DecidableEq α]
    {l : List (α × β)} {k a : α} {v b : β}
    (h : (a, b) ∈ assocUpdate l k v) :
    (a = k ∧ b = v) ∨ ((a, b) ∈ l ∧ a ≠ k) := by
  unfold assocUpdate at h
  split at h
  · rw [List.mem_map] at h
    obtain ⟨p, hp, he⟩ := h
    by_cases hh : p.1 = k
    · simp only [hh, if_pos] at he
      left
      exact ⟨(Prod.mk.injEq _ _ _ _ ▸ he).1.symm, (Prod.mk.injEq _ _ _ _ ▸ he).2.symm⟩
    · simp only [hh, if_neg, not_false_iff] at he
      right
      subst he
      exact ⟨hp, hh⟩
  · rw [List.mem_append] at h
    cases h with
    | inl h =>
      by_cases hak : a = k
      · rename_i hany
        exfalso
        exact hany (List.any_eq_true.mpr ⟨(a, b), h, by simp [hak]⟩)
      · exact Or.inr ⟨h, hak⟩
    | inr h =>
      simp only [List.mem_singleton, Prod.mk.injEq] at h
      exact Or.inl h

/-! ## String helpers (Python code-point slicing) -/

/-- Python `s[n:]` on a `str` (drop the first `n` code points). -/
def strDrop (s : String) (n : Nat) : String := String.mk (s.data.drop n)

/-- Python `s[0:n]` on a `str` (take the first `n` code points). -/
def strTake (s : String) (n : Nat) : String := String.mk (s.data.take n)

/-- Python `s[0:-1]` on a `str` (drop the last code point). -/
def strDropLast (s : String) : String := String.mk (s.data.dropLast)

/-! ## ByteCursor primitives (`getint`, `getstring`, `getbytes`)

Buffers are `List Nat`; `data[offset]?` models Python byte indexing, where an
out-of-range index raises `IndexError` (`Err.truncated`).  Python slices
(`data[a:b]`) clamp silently and never raise; they are `(data.drop a).take n`.
-/

/-- Accumulator loop of `getint`: `value = (value << 8) + data[offset]`,
once per remaining byte. -/
def getintAux (data : List Nat) : Nat → Nat → Nat → Except Err (Nat × Nat)
  | value, offset, 0 => .ok (value, offset)
  | value, offset, intsize + 1 =>
    match data[offset]? with
    | none => .error .truncated
    | some b => getintAux data (value * 256 + b) (offset + 1) intsize

/-- `getint(data, offset, intsize)`: big-endian unsigned integer read. -/
def getint (data : List Nat) (offset intsize : Nat) : Except Err (Nat × Nat) :=
  getintAux data 0 offset intsize

/-- `getstring(data, offset)` minus the leading `0xFF 0xFF` blank check:
read a 2-byte length, slice that many bytes and decode them with `dec`
(the abstract `bytes.decode('utf-8')`; `none` = `UnicodeDecodeError`). -/
def getstringBody (dec : List Nat → Option String) (data : List Nat) (offset : Nat) :
    Except Err (String × Nat) :=
  match getint data offset 2 with
  | .error e => .error e
  | .ok (length, offset2) =>
    match dec ((data.drop offset2).take length) with
    | some s => .ok (s, offset2 + length)
    | none => .error .invalidEncoding

/-- `getstring(data, offset)`: `0xFF 0xFF` at `offset` is the blank-string
sentinel (returns `""` and `offset+2`); Python evaluates `data[offset]` first
and short-circuits `and`, so `data[offset+1]` is only read when
`data[offset] == 0xFF`. -/
def getstring (dec : List Nat → Option String) (data : List Nat) (offset : Nat) :
    Except Err (String × Nat) :=
  match data[offset]? with
  | none => .error .truncated
  | some b0 =>
    if b0 = 255 then
      match data[offset + 1]? with
      | none => .error .truncated
      | some b1 =>
        if b1 = 255 then .ok ("", offset + 2)
        else getstringBody dec data offset
    else getstringBody dec data offset

/-- Value-reading part of `getbytes`: identical framing to `getstringBody`
but the raw byte span is returned undecoded. -/
def getbytesBody (data : List Nat) (offset : Nat) : Except Err (List Nat × Nat) :=
  match getint data offset 2 with
  | .error e => .error e
  | .ok (length, offset2) => .ok ((data.drop offset2).take length, offset2 + length)

/-- `getbytes(data, offset)`: like `getstring` but undecoded.  (On the blank
sentinel Python returns the empty `str` `''` rather than `b''`; both are
empty and nothing downstream distinguishes them, so the model returns `[]`.) -/
def getbytes (data : List Nat) (offset : Nat) : Except Err (List Nat × Nat) :=
  match data[offset]? with
  | none => .error .truncated
  | some b0 =>
    if b0 = 255 then
      match data[offset + 1]? with
      | none => .error .truncated
      | some b1 =>
        if b1 = 255 then .ok ([], offset + 2)
        else getbytesBody data offset
    else getbytesBody data offset

/-- Big-endian value of a byte list (specification-side fold). -/
def beVal (l : List Nat) : Nat := l.foldl (fun a b => a * 256 + b) 0

theorem getintAux_ok (data : List Nat) :
    ∀ (n value offset : Nat), offset + n ≤ data.length →
      getintAux data value offset n =
        .ok (((data.drop offset).take n).foldl (fun a b => a * 256 + b) value, offset + n) := by
  intro n
  induction n with
  | zero => intro value offset h; simp [getintAux]
  | succ m ih =>
    intro value offset h
    have hoff : offset < data.length := by omega
    have hstep : getintAux data value offset (m + 1) =
        getintAux data (value * 256 + data[offset]) (offset + 1) m := by
      simp only [getintAux, List.getElem?_eq_getElem hoff]
    have hdrop : data.drop offset = data[offset] :: data.drop (offset + 1) :=
      List.drop_eq_getElem_cons hoff
    have harith : offset + 1 + m = offset + (m + 1) := by omega
    rw [hstep, ih (value * 256 + data[offset]) (offset + 1) (by omega), hdrop,
      List.take_succ_cons, List.foldl_cons, harith]

theorem getint_ok (data : List Nat) (offset n : Nat) (h : offset + n ≤ data.length) :
    getint data offset n = .ok (beVal ((data.drop offset).take n), offset + n) := by
  unfold getint beVal
  exact getintAux_ok data n 0 offset h

theorem getintAux_err (data : List Nat) :
    ∀ (n value offset : Nat), 1 ≤ n → data.length < offset + n →
      getintAux data value offset n = .error .truncated := by
  intro n
  induction n with
  | zero => omega
  | succ m ih =>
    intro value offset _ h
    by_cases hoff : offset < data.length
    · have hm : 1 ≤ m := by omega
      simp only [getintAux, List.getElem?_eq_getElem hoff]
      exact ih (value * 256 + data[offset]) (offset + 1) hm (by omega)
    · simp only [getintAux, List.getElem?_eq_none (show data.length ≤ offset by omega)]

theorem getint_err (data : List Nat) (offset n : Nat) (h1 : 1 ≤ n)
    (h2 : data.length < offset + n) : getint data offset n = .error .truncated :=
  getintAux_err data n 0 offset h1 h2

theorem getint_advance (data : List Nat) (offset n : Nat) {v o2 : Nat}
    (h : getint data offset n = .ok (v, o2)) : o2 = offset + n := by
  by_cases hle : offset + n ≤ data.length
  · rw [getint_ok data offset n hle] at h
    exact (Prod.mk.injEq _ _ _ _ ▸ Except.ok.injEq _ _ ▸ h).2.symm
  · by_cases h1 : 1 ≤ n
    · rw [getint_err data offset n h1 (by omega)] at h
      cases h
    · have : n = 0 := by omega
      subst this
      simp [getint, getintAux] at h
      omega

deriving instance DecidableEq for Except

/-! ## ManifestParser (legacy `Manifest.mbdb` binary format) -/

/-- One parsed manifest record (`fileinfo` dict of `process_mbdb_file`);
`fileID` is assigned later by `load_manifest` and defaults to `""`. -/
structure Record where
  start_offset : Nat
  domain : String
  filename : String
  linktarget : List Nat
  datahash : List Nat
  unknown1 : List Nat
  mode : Nat
  unknown2 : Nat
  unknown3 : Nat
  userid : Nat
  groupid : Nat
  mtime : Nat
  atime : Nat
  ctime : Nat
  filelen : Nat
  flag : Nat
  numprops : Nat
  properties : List (String × List Nat)
  fileID : String := ""
deriving DecidableEq, Repr

/-- The `numprops` property pairs of one record: `(propname string, propval
bytes)`, stored dict-style (`assocUpdate`: duplicate names keep the last
value). -/
def readProps (dec : List Nat → Option String) (data : List Nat) :
    Nat → Nat → List (String × List Nat) → Except Err (List (String × List Nat) × Nat)
  | 0, offset, acc => .ok (acc, offset)
  | n + 1, offset, acc =>
    match getstring dec data offset with
    | .error e => .error e
    | .ok (propname, o1) =>
      match getbytes data o1 with
      | .error e => .error e
      | .ok (propval, o2) => readProps dec data n o2 (assocUpdate acc propname propval)

/-- One iteration of the `while offset < len(data)` loop of
`process_mbdb_file`: decode every field of a record in source order,
returning the record and the offset after it.  `start_offset` is the offset
at the start of the iteration. -/
def parseRecord (dec : List Nat → Option String) (data : List Nat) (offset : Nat) :
    Except Err (Record × Nat) :=
  match getstring dec data offset with
  | .error e => .error e
  | .ok (domain, o1) =>
  match getstring dec data o1 with
  | .error e => .error e
  | .ok (filename, o2) =>
  match getbytes data o2 with
  | .error e => .error e
  | .ok (linktarget, o3) =>
  match getbytes data o3 with
  | .error e => .error e
  | .ok (datahash, o4) =>
  match getbytes data o4 with
  | .error e => .error e
  | .ok (unknown1, o5) =>
  match getint data o5 2 with
  | .error e => .error e
  | .ok (mode, o6) =>
  match getint data o6 4 with
  | .error e => .error e
  | .ok (unknown2, o7) =>
  match getint data o7 4 with
  | .error e => .error e
  | .ok (unknown3, o8) =>
  match getint data o8 4 with
  | .error e => .error e
  | .ok (userid, o9) =>
  match getint data o9 4 with
  | .error e => .error e
  | .ok (groupid, o10) =>
  match getint data o10 4 with
  | .error e => .error e
  | .ok (mtime, o11) =>
  match getint data o11 4 with
  | .error e => .error e
  | .ok (atime, o12) =>
  match getint data o12 4 with
  | .error e => .error e
  | .ok (ctime, o13) =>
  match getint data o13 8 with
  | .error e => .error e
  | .ok (filelen, o14) =>
  match getint data o14 1 with
  | .error e => .error e
  | .ok (flag, o15) =>
  match getint data o15 1 with
  | .error e => .error e
  | .ok (numprops, o16) =>
  match readProps dec data numprops o16 [] with
  | .error e => .error e
  | .ok (properties, o17) =>
    .ok ({ start_offset := offset, domain := domain, filename := filename,
           linktarget := linktarget, datahash := datahash, unknown1 := unknown1,
           mode := mode, unknown2 := unknown2, unknown3 := unknown3,
           userid := userid, groupid := groupid, mtime := mtime, atime := atime,
           ctime := ctime, filelen := filelen, flag := flag, numprops := numprops,
           properties := properties }, o17)

/-- The record loop of `process_mbdb_file`.  Per iteration it stores the
record in `mbdb` under `start_offset` and, in the same pass, the SHA1-derived
content ID in `mbdx` (`self._mbdx`) under the same key (`sha1` abstracts
`hashlib.sha1(fullpath.encode()).hexdigest()`).  The loop runs while
`offset < len(data)`; each record consumes at least one byte
(`parseRecord_advance`), so `fuel = data.length + 1` never runs out
(`parseLoopF_no_impossible`). -/
def parseLoopF (dec : List Nat → Option String) (sha1 : String → String)
    (data : List Nat) :
    Nat → Nat → List (Nat × Record) → List (Nat × String) →
      Except Err (List (Nat × Record) × List (Nat × String))
  | 0, _, _, _ => .error .impossible
  | fuel + 1, offset, mbdb, mbdx =>
    if offset < data.length then
      match parseRecord dec data offset with
      | .error e => .error e
      | .ok (r, offset2) =>
        parseLoopF dec sha1 data fuel offset2 (assocUpdate mbdb offset r)
          (assocUpdate mbdx offset (sha1 (r.domain ++ "-" ++ r.filename)))
    else .ok (mbdb, mbdx)

/-- Byte values of the ASCII tag `mbdb`. -/
def mbdbMagic : List Nat := [109, 98, 100, 98]

/-- `process_mbdb_file` on the file's contents: check the 4-byte magic, skip
2 opaque bytes, then run the record loop from offset 6.  Returns the
offset-keyed record map and the offset-keyed computed-ID table. -/
def process_mbdb_file (dec : List Nat → Option String) (sha1 : String → String)
    (data : List Nat) : Except Err (List (Nat × Record) × List (Nat × String)) :=
  if data.take 4 ≠ mbdbMagic then .error .invalidFormat
  else parseLoopF dec sha1 data (data.length + 1) 6 [] []

/-- The fileID annotation of `load_manifest`: look the record's offset up in
the computed-ID table, falling back to the sentinel `"<nofileID>"` (plus a
stderr diagnostic, which the model drops) when absent. -/
def setFileID (mbdx : List (Nat × String)) (offset : Nat) (r : Record) : Record :=
  match assocGet mbdx offset with
  | some i => { r with fileID := i }
  | none => { r with fileID := "<nofileID>" }

/-- `load_manifest` given the manifest file's bytes: parse, then annotate
every record with its fileID. -/
def load_manifest (dec : List Nat → Option String) (sha1 : String → String)
    (data : List Nat) : Except Err (List (Nat × Record)) :=
  match process_mbdb_file dec sha1 data with
  | .error e => .error e
  | .ok (mbdb, mbdx) => .ok (mbdb.map (fun e => (e.1, setFileID mbdx e.1 e.2)))

/-- A length-bucketed fast-find index: path length → (exact path → stored
value), in the dict-of-dicts shape of `self._ff`. -/
abbrev FF := List (Nat × List (String × String))

/-- `index[len_fn][fn] = v` including the `if len_fn not in index` bucket
creation. -/
def ffInsert (idx : FF) (len : Nat) (fn v : String) : FF :=
  assocUpdate idx len (assocUpdate ((assocGet idx len).getD []) fn v)

/-- `OldIPhoneBackupFilenameFinder.make_fast_find`: bucket every record's
`filename` by character length, storing its `fileID`. -/
def make_fast_find (mbdb : List (Nat × Record)) : FF :=
  mbdb.foldl (fun idx e => ffInsert idx e.2.filename.length e.2.filename e.2.fileID) []

/-- Post-construction state of `OldIPhoneBackupFilenameFinder`: the parsed
record map and the fast-find index built from it. -/
structure OldBackend where
  mbdb : List (Nat × Record)
  ff : FF
deriving DecidableEq, Repr

/-- Eager construction of `OldIPhoneBackupFilenameFinder.__init__` from the
manifest bytes: `load_manifest` then `make_fast_find`; any parse error aborts
construction, so no partially built index is ever returned. -/
def oldConstruct (dec : List Nat → Option String) (sha1 : String → String)
    (data : List Nat) : Except Err OldBackend :=
  match load_manifest dec sha1 data with
  | .error e => .error e
  | .ok mbdb => .ok { mbdb := mbdb, ff := make_fast_find mbdb }

theorem getstringBody_advance {dec : List Nat → Option String} {data : List Nat}
    {o : Nat} {s : String} {o2 : Nat}
    (h : getstringBody dec data o = .ok (s, o2)) : o + 2 ≤ o2 := by
  unfold getstringBody at h
  split at h
  · exact Except.noConfusion h
  · rename_i len o' hg
    split at h
    · rename_i s' hdec
      simp only [Except.ok.injEq, Prod.mk.injEq] at h
      have := getint_advance data o 2 hg
      omega
    · exact Except.noConfusion h

theorem getstring_advance {dec : List Nat → Option String} {data : List Nat}
    {o : Nat} {s : String} {o2 : Nat}
    (h : getstring dec data o = .ok (s, o2)) : o + 2 ≤ o2 := by
  unfold getstring at h
  split at h
  · exact Except.noConfusion h
  · rename_i b0 hb0
    split at h
    · split at h
      · exact Except.noConfusion h
      · rename_i b1 hb1
        split at h
        · simp only [Except.ok.injEq, Prod.mk.injEq] at h
          omega
        · exact getstringBody_advance h
    · exact getstringBody_advance h

theorem getbytesBody_advance {data : List Nat} {o : Nat} {v : List Nat} {o2 : Nat}
    (h : getbytesBody data o = .ok (v, o2)) : o + 2 ≤ o2 := by
  unfold getbytesBody at h
  split at h
  · exact Except.noConfusion h
  · rename_i len o' hg
    simp only [Except.ok.injEq, Prod.mk.injEq] at h
    have := getint_advance data o 2 hg
    omega

theorem getbytes_advance {data : List Nat} {o : Nat} {v : List Nat} {o2 : Nat}
    (h : getbytes data o = .ok (v, o2)) : o + 2 ≤ o2 := by
  unfold getbytes at h
  split at h
  · exact Except.noConfusion h
  · rename_i b0 hb0
    split at h
    · split at h
      · exact Except.noConfusion h
      · rename_i b1 hb1
        split at h
        · simp only [Except.ok.injEq, Prod.mk.injEq] at h
          omega
        · exact getbytesBody_advance h
    · exact getbytesBody_advance h

theorem readProps_mono {dec : List Nat → Option String} {data : List Nat} :
    ∀ {n o : Nat} {acc : List (String × List Nat)} {ps : List (String × List Nat)} {o2 : Nat},
      readProps dec data n o acc = .ok (ps, o2) → o ≤ o2 := by
  intro n
  induction n with
  | zero =>
    intro o acc ps o2 h
    simp only [readProps, Except.ok.injEq, Prod.mk.injEq] at h
    omega
  | succ m ih =>
    intro o acc ps o2 h
    unfold readProps at h
    split at h
    · exact Except.noConfusion h
    · rename_i pn o1 hpn
      split at h
      · exact Except.noConfusion h
      · rename_i pv o2' hpv
        have h1 := getstring_advance hpn
        have h2 := getbytes_advance hpv
        have h3 := ih h
        omega

theorem parseRecord_ok {dec : List Nat → Option String} {data : List Nat}
    {o : Nat} {r : Record} {o2 : Nat}
    (h : parseRecord dec data o = .ok (r, o2)) : r.start_offset = o ∧ o < o2 := by
  unfold parseRecord at h
  repeat' split at h
  any_goals exact Except.noConfusion h
  rename_i _ _ _ hdom _ _ _ hfn _ _ _ hlt _ _ _ hdh _ _ _ hu1 _ _ _ hmode _ _ _ hu2 _ _ _ hu3 _ _ _ huid _ _ _ hgid _ _ _ hmt _ _ _ hat _ _ _ hct _ _ _ hfl _ _ _ hflag _ _ _ hnp _ _ _ hprops
  simp only [Except.ok.injEq, Prod.mk.injEq] at h
  obtain ⟨hr, ho⟩ := h
  subst hr
  have a1 := getstring_advance hdom
  have a2 := getstring_advance hfn
  have a3 := getbytes_advance hlt
  have a4 := getbytes_advance hdh
  have a5 := getbytes_advance hu1
  have a6 := getint_advance _ _ _ hmode
  have a7 := getint_advance _ _ _ hu2
  have a8 := getint_advance _ _ _ hu3
  have a9 := getint_advance _ _ _ huid
  have a10 := getint_advance _ _ _ hgid
  have a11 := getint_advance _ _ _ hmt
  have a12 := getint_advance _ _ _ hat
  have a13 := getint_advance _ _ _ hct
  have a14 := getint_advance _ _ _ hfl
  have a15 := getint_advance _ _ _ hflag
  have a16 := getint_advance _ _ _ hnp
  have a17 := readProps_mono hprops
  exact ⟨rfl, by omega⟩

/-! ### The parser never hits the fuel bound

Every error produced by the decoding primitives is `.truncated` or
`.invalidEncoding`, and each loop iteration strictly advances the offset, so
with fuel `data.length + 1` the `.impossible` case of `parseLoopF` is
unreachable: the model's observable behaviour coincides with the unbounded
Python loop. -/

theorem getintAux_ne_imp {data : List Nat} :
    ∀ {n v o : Nat} {e : Err}, getintAux data v o n = .error e → e ≠ .impossible := by
  intro n
  induction n with
  | zero => intro v o e h; exact Except.noConfusion h
  | succ m ih =>
    intro v o e h
    unfold getintAux at h
    split at h
    · injection h with he
      subst he
      decide
    · exact ih h

theorem getint_ne_imp {data : List Nat} {o n : Nat} {e : Err}
    (h : getint data o n = .error e) : e ≠ .impossible := getintAux_ne_imp h

theorem getstringBody_ne_imp {dec : List Nat → Option String} {data : List Nat}
    {o : Nat} {e : Err} (h : getstringBody dec data o = .error e) : e ≠ .impossible := by
  unfold getstringBody at h
  split at h
  · rename_i e' hq
    injection h with he
    subst he
    exact getint_ne_imp hq
  · split at h
    · exact Except.noConfusion h
    · injection h with he
      subst he
      decide

theorem getstring_ne_imp {dec : List Nat → Option String} {data : List Nat}
    {o : Nat} {e : Err} (h : getstring dec data o = .error e) : e ≠ .impossible := by
  unfold getstring at h
  split at h
  · injection h with he
    subst he
    decide
  · split at h
    · split at h
      · injection h with he
        subst he
        decide
      · split at h
        · exact Except.noConfusion h
        · exact getstringBody_ne_imp h
    · exact getstringBody_ne_imp h

theorem getbytesBody_ne_imp {data : List Nat} {o : Nat} {e : Err}
    (h : getbytesBody data o = .error e) : e ≠ .impossible := by
  unfold getbytesBody at h
  split at h
  · rename_i e' hq
    injection h with he
    subst he
    exact getint_ne_imp hq
  · exact Except.noConfusion h

theorem getbytes_ne_imp {data : List Nat} {o : Nat} {e : Err}
    (h : getbytes data o = .error e) : e ≠ .impossible := by
  unfold getbytes at h
  split at h
  · injection h with he
    subst he
    decide
  · split at h
    · split at h
      · injection h with he
        subst he
        decide
      · split at h
        · exact Except.noConfusion h
        · exact getbytesBody_ne_imp h
    · exact getbytesBody_ne_imp h

theorem readProps_ne_imp {dec : List Nat → Option String} {data : List Nat} :
    ∀ {n o : Nat} {acc : List (String × List Nat)} {e : Err},
      readProps dec data n o acc = .error e → e ≠ .impossible := by
  intro n
  induction n with
  | zero => intro o acc e h; exact Except.noConfusion h
  | succ m ih =>
    intro o acc e h
    unfold readProps at h
    split at h
    · rename_i e' hq
      injection h with he
      subst he
      exact getstring_ne_imp hq
    · split at h
      · rename_i e' hq
        injection h with he
        subst he
        exact getbytes_ne_imp hq
      · exact ih h

theorem parseRecord_ne_imp {dec : List Nat → Option String} {data : List Nat}
    {o : Nat} {e : Err} (h : parseRecord dec data o = .error e) : e ≠ .impossible := by
  unfold parseRecord at h
  repeat' split at h
  all_goals
    first
    | exact Except.noConfusion h
    | (rename_i e' hq
       injection h with he
       subst he
       first
       | exact getstring_ne_imp hq
       | exact getbytes_ne_imp hq
       | exact getint_ne_imp hq
       | exact readProps_ne_imp hq)

theorem parseLoopF_no_imp {dec : List Nat → Option String} {sha1 : String → String}
    {data : List Nat} :
    ∀ {fuel offset : Nat} {db : List (Nat × Record)} {dx : List (Nat × String)},
      1 ≤ fuel → data.length + 1 ≤ fuel + offset →
      parseLoopF dec sha1 data fuel offset db dx ≠ .error .impossible := by
  intro fuel
  induction fuel with
  | zero => omega
  | succ m ih =>
    intro offset db dx _ hle
    unfold parseLoopF
    split
    · rename_i hlt
      cases hq : parseRecord dec data offset with
      | error e =>
        intro hc
        injection hc with he
        exact parseRecord_ne_imp hq he
      | ok p =>
        obtain ⟨r, o2⟩ := p
        have hadv := (parseRecord_ok hq).2
        exact ih (by omega) (by omega)
    · intro hc
      exact Except.noConfusion hc

theorem process_mbdb_file_no_imp (dec : List Nat → Option String)
    (sha1 : String → String) (data : List Nat) :
    process_mbdb_file dec sha1 data ≠ .error .impossible := by
  unfold process_mbdb_file
  split
  · intro hc
    injection hc with he
    exact Err.noConfusion he
  · exact parseLoopF_no_imp (by omega) (by omega)

/-- Loop invariant of `process_mbdb_file`: the record map and the computed-ID
table are written in the same pass under the same `start_offset` key, so
every stored record stays aligned with its SHA1-derived ID. -/
theorem parseLoopF_inv {dec : List Nat → Option String} {sha1 : String → String}
    {data : List Nat} :
    ∀ {fuel offset : Nat} {db db' : List (Nat × Record)} {dx dx' : List (Nat × String)},
      parseLoopF dec sha1 data fuel offset db dx = .ok (db', dx') →
      (∀ o r, (o, r) ∈ db → r.start_offset = o ∧
          assocGet dx o = some (sha1 (r.domain ++ "-" ++ r.filename))) →
      (∀ o r, (o, r) ∈ db' → r.start_offset = o ∧
          assocGet dx' o = some (sha1 (r.domain ++ "-" ++ r.filename))) := by
  intro fuel
  induction fuel with
  | zero => intro offset db db' dx dx' h; exact Except.noConfusion h
  | succ m ih =>
    intro offset db db' dx dx' h hinv
    unfold parseLoopF at h
    split at h
    · cases hq : parseRecord dec data offset with
      | error e => rw [hq] at h; exact Except.noConfusion h
      | ok p =>
        obtain ⟨r, o2⟩ := p
        rw [hq] at h
        refine ih h ?_
        intro o r' hmem
        rcases mem_assocUpdate hmem with ⟨ho, hr⟩ | ⟨hmem', hne⟩
        · subst ho
          subst hr
          exact ⟨(parseRecord_ok hq).1, assocGet_update_self _ _ _⟩
        · rw [assocGet_update_ne _ _ _ _ hne]
          exact hinv o r' hmem'
    · simp only [Except.ok.injEq, Prod.mk.injEq] at h
      obtain ⟨h1, h2⟩ := h
      subst h1
      subst h2
      exact hinv

/-! ## FastFindIndex lookups -/

/-- Two-level index lookup: bucket by length, then exact path text. -/
def ffLookup (idx : FF) (len : Nat) (p : String) : Option String :=
  match assocGet idx len with
  | none => none
  | some bucket => assocGet bucket p

theorem ffLookup_insert (idx : FF) (len : Nat) (fn v : String) (L : Nat) (p : String) :
    ffLookup (ffInsert idx len fn v) L p =
      if L = len ∧ p = fn then some v else ffLookup idx L p := by
  unfold ffInsert ffLookup
  by_cases hL : L = len
  · subst hL
    rw [assocGet_update_self]
    show assocGet (assocUpdate ((assocGet idx L).getD []) fn v) p = _
    by_cases hp : p = fn
    · subst hp
      rw [assocGet_update_self]
      simp
    · rw [assocGet_update_ne _ _ _ _ hp]
      simp only [hp, and_false, if_false]
      cases hb : assocGet idx L with
      | none => rfl
      | some bucket => rfl
  · rw [assocGet_update_ne _ _ _ _ hL]
    simp [hL]

/-! ## `NewIPhoneBackupFilenameFinder.make_fast_find`

The modern backend queries `SELECT relativePath, fileID FROM Files` from the
read-only SQLite manifest; that external capability is modelled as the row
list itself: each row is `(relativePath, fileID)` with a nullable path. -/

/-- Build the modern fast-find index from the manifest rows: skip null paths,
bucket by path length, store `fileID[0:2] + '/' + fileID`. -/
def newMakeFastFind (rows : List (Option String × String)) : FF :=
  rows.foldl
    (fun idx row =>
      match row.1 with
      | none => idx
      | some fn => ffInsert idx fn.length fn (strTake row.2 2 ++ "/" ++ row.2))
    []

/-- The fileID of the last row whose (non-null) path equals `p`. -/
def lastMatch (rows : List (Option String × String)) (p : String) : Option String :=
  rows.foldl (fun acc row => if row.1 = some p then some row.2 else acc) none

theorem lastMatchAux (p : String) :
    ∀ (rows : List (Option String × String)) (a : Option String),
      rows.foldl (fun acc row => if row.1 = some p then some row.2 else acc) a =
        match rows.foldl (fun acc row => if row.1 = some p then some row.2 else acc) none with
        | some v => some v
        | none => a := by
  intro rows
  induction rows with
  | nil => intro a; cases a <;> simp
  | cons hd tl ih =>
    intro a
    simp only [List.foldl_cons]
    rw [ih (if hd.1 = some p then some hd.2 else a),
      ih (if hd.1 = some p then some hd.2 else none)]
    cases hfold : tl.foldl (fun acc row => if row.1 = some p then some row.2 else acc) none with
    | none =>
      by_cases hh : hd.1 = some p
      · simp [hh]
      · simp [hh]
    | some v => simp

theorem lastMatch_cons (row : Option String × String) (rows : List (Option String × String))
    (p : String) :
    lastMatch (row :: rows) p =
      match lastMatch rows p with
      | some v => some v
      | none => if row.1 = some p then some row.2 else none := by
  unfold lastMatch
  simp only [List.foldl_cons]
  exact lastMatchAux p rows (if row.1 = some p then some row.2 else none)

/-- One fold step of `newMakeFastFind`. -/
def newFFStep (idx : FF) (row : Option String × String) : FF :=
  match row.1 with
  | none => idx
  | some fn => ffInsert idx fn.length fn (strTake row.2 2 ++ "/" ++ row.2)

theorem newMakeFastFind_eq_foldl (rows : List (Option String × String)) :
    newMakeFastFind rows = rows.foldl newFFStep [] := rfl

theorem newFFAux (L : Nat) (p : String) :
    ∀ (rows : List (Option String × String)) (idx : FF),
      ffLookup (rows.foldl newFFStep idx) L p =
        match (if L = p.length then lastMatch rows p else none) with
        | some id => some (strTake id 2 ++ "/" ++ id)
        | none => ffLookup idx L p := by
  intro rows
  induction rows with
  | nil =>
    intro idx
    show ffLookup idx L p = _
    have : lastMatch [] p = none := rfl
    rw [this]
    cases hL : decide (L = p.length) <;> simp_all
  | cons row tl ih =>
    intro idx
    simp only [List.foldl_cons]
    rw [ih (newFFStep idx row), lastMatch_cons]
    by_cases hL : L = p.length
    · simp only [if_pos hL]
      cases hm : lastMatch tl p with
      | some v => rfl
      | none =>
        obtain ⟨rfn, rid⟩ := row
        cases rfn with
        | none => rfl
        | some fn =>
          show ffLookup (ffInsert idx fn.length fn (strTake rid 2 ++ "/" ++ rid)) L p = _
          rw [ffLookup_insert]
          by_cases hp : p = fn
          · subst hp
            simp [hL]
          · have hne : ¬ (some fn = some p) := fun hc => hp (Option.some.injEq _ _ ▸ hc).symm
            simp only [hp, and_false, if_false]
            show ffLookup idx L p = _
            simp [hne]
    · simp only [if_neg hL]
      obtain ⟨rfn, rid⟩ := row
      cases rfn with
      | none => rfl
      | some fn =>
        show ffLookup (ffInsert idx fn.length fn (strTake rid 2 ++ "/" ++ rid)) L p = _
        rw [ffLookup_insert]
        have hp : ¬ (L = fn.length ∧ p = fn) := by
          rintro ⟨h1, h2⟩
          subst h2
          exact hL h1
        simp only [hp, if_false]

/-! ## `BaseIPhoneBackupFilenameFinder.filename`: suffix-match lookup

The Python loop keeps an integer `index` with `index = -1` or a position of
`/` in `f`; every use is of `index + 1`, so the model carries
`start = index + 1 : Nat` (the start of the current candidate suffix).
`len_f - index - 1` is the suffix length `f.length - start`, `f[index+1:]`
is `strDrop f start`, and `f.find('/', index+1)` is `findFrom f '/' start`.
-/

/-- Positions `≥ start` (in increasing order) whose character is `c`. -/
def posList (f : String) (c : Char) (start : Nat) : List Nat :=
  (List.range f.length).filter
    (fun q => decide (start ≤ q) && decide (f.data[q]? = some c))

/-- Python `f.find(c, start)`: the first position `≥ start` holding `c`
(`none` models the `-1` "not found" result). -/
def findFrom (f : String) (c : Char) (start : Nat) : Option Nat :=
  (posList f c start).head?

/-- The bucket probe of one loop iteration: look up the bucket for the
current suffix length and scan it for an exact match of `f[index+1:]`
(Python iterates the bucket's keys and compares; an absent bucket — and,
vacuously, an empty one, which `if(iff)` also skips — yields no match). -/
def hitAt (ff : FF) (f : String) (start : Nat) : Option String :=
  ffLookup ff (f.length - start) (strDrop f start)

/-- The `while(True)` lookup loop: probe the current suffix; on a hit return
the expanded `backup_path + '/' + value`, otherwise advance `index` to the
next `/` and retry, returning `None` (absence) when no `/` remains.  Each
iteration strictly increases `start ≤ f.length`, so fuel `f.length + 1`
never runs out (`filenameLoop_ok`). -/
def filenameLoop (ff : FF) (root : String) (expand : String → String) (f : String) :
    Nat → Nat → Except Err (Option String)
  | 0, _ => .error .impossible
  | fuel + 1, start =>
    match hitAt ff f start with
    | some v => .ok (some (expand (root ++ "/" ++ v)))
    | none =>
      match findFrom f '/' start with
      | none => .ok none
      | some pos => filenameLoop ff root expand f fuel (pos + 1)

/-- `filename(f)` of the backup backends: Python reads `f[0]` (an
`IndexError` on the empty string), picks the initial `index` (0 for a
leading `/`, else -1, i.e. `start` 1 or 0) and runs the loop. -/
def backupFilename (ff : FF) (root : String) (expand : String → String) (f : String) :
    Except Err (Option String) :=
  match f.data with
  | [] => .error .truncated
  | c :: _ => filenameLoop ff root expand f (f.length + 1) (if c = '/' then 1 else 0)

theorem posList_sorted (f : String) (c : Char) (start : Nat) :
    (posList f c start).Pairwise (· < ·) :=
  (List.pairwise_lt_range f.length).sublist (List.filter_sublist _)

theorem mem_posList {f : String} {c : Char} {start q : Nat} :
    q ∈ posList f c start ↔ q < f.length ∧ start ≤ q ∧ f.data[q]? = some c := by
  unfold posList
  rw [List.mem_filter, List.mem_range]
  simp only [Bool.and_eq_true, decide_eq_true_eq]

theorem findFrom_none {f : String} {c : Char} {start : Nat}
    (h : findFrom f c start = none) : posList f c start = [] := by
  unfold findFrom at h
  exact List.head?_eq_none_iff.mp h

theorem findFrom_bounds {f : String} {c : Char} {start pos : Nat}
    (h : findFrom f c start = some pos) :
    start ≤ pos ∧ pos < f.length := by
  unfold findFrom at h
  have hm : pos ∈ posList f c start := List.mem_of_mem_head? h
  have := mem_posList.mp hm
  exact ⟨this.2.1, this.1⟩

theorem findFrom_unfold {f : String} {c : Char} {start pos : Nat}
    (h : findFrom f c start = some pos) :
    posList f c start = pos :: posList f c (pos + 1) := by
  unfold findFrom at h
  cases hl : posList f c start with
  | nil => rw [hl] at h; exact Option.noConfusion h
  | cons hd tl =>
    rw [hl] at h
    injection h with hhd
    subst hhd
    have hsorted := posList_sorted f c start
    rw [hl] at hsorted
    have htail : ∀ q ∈ tl, hd < q := (List.pairwise_cons.mp hsorted).1
    have hmem := mem_posList.mp (hl ▸ (List.mem_cons_self hd tl))
    have hA : (hd :: tl).filter (fun q => decide (hd + 1 ≤ q)) = tl := by
      rw [List.filter_cons]
      have h1 : (decide (hd + 1 ≤ hd)) = false := by simp
      rw [h1]
      simp only [Bool.false_eq_true, if_false]
      exact List.filter_eq_self.mpr (fun q hq => by
        have := htail q hq
        simpa using (by omega : hd + 1 ≤ q))
    have hBC : (hd :: tl).filter (fun q => decide (hd + 1 ≤ q)) = posList f c (hd + 1) := by
      rw [← hl]
      unfold posList
      rw [List.filter_filter]
      congr 1
      funext q
      by_cases hq : hd + 1 ≤ q
      · have h2 : start ≤ q := by
          have := hmem.2.1
          omega
        simp [hq, h2]
      · simp [hq]
    rw [← hBC, hA]

/-- Candidate starts visited after `start`: one past each `/` at a position
`≥ start`, in increasing order. -/
def slashStarts (f : String) (start : Nat) : List Nat :=
  (posList f '/' start).map (fun q => q + 1)

/-- Specification-side description of the lookup: probe the candidate starts
in order and wrap the first hit in `expand(backup_path + '/' + value)`. -/
def searchSpec (ff : FF) (root : String) (expand : String → String) (f : String)
    (cands : List Nat) : Option String :=
  (cands.findSome? (fun s => hitAt ff f s)).map (fun v => expand (root ++ "/" ++ v))

/-- The loop equals the candidate-list search, given enough fuel and a start
within the string. -/
theorem filenameLoop_spec (ff : FF) (root : String) (expand : String → String)
    (f : String) :
    ∀ (fuel start : Nat), start ≤ f.length → f.length + 1 ≤ fuel + start →
      filenameLoop ff root expand f fuel start =
        .ok (searchSpec ff root expand f (start :: slashStarts f start)) := by
  intro fuel
  induction fuel with
  | zero => intro start h1 h2; omega
  | succ m ih =>
    intro start h1 h2
    simp only [filenameLoop]
    cases hh : hitAt ff f start with
    | some v =>
      simp only [searchSpec, List.findSome?_cons, hh]
      rfl
    | none =>
      cases hf : findFrom f '/' start with
      | none =>
        have h0 : slashStarts f start = [] := by
          unfold slashStarts
          rw [findFrom_none hf]
          rfl
        simp only [searchSpec, List.findSome?_cons, hh, h0, List.findSome?_nil]
        rfl
      | some pos =>
        have hb := findFrom_bounds hf
        have hss : slashStarts f start = (pos + 1) :: slashStarts f (pos + 1) := by
          unfold slashStarts
          rw [findFrom_unfold hf]
          rfl
        show filenameLoop ff root expand f m (pos + 1) = _
        rw [ih (pos + 1) (by omega) (by omega)]
        simp only [searchSpec, List.findSome?_cons, hh, hss]

/-- The loop never throws once entered with a start inside the string. -/
theorem filenameLoop_ok (ff : FF) (root : String) (expand : String → String)
    (f : String) (fuel start : Nat) (h1 : start ≤ f.length)
    (h2 : f.length + 1 ≤ fuel + start) :
    ∃ r, filenameLoop ff root expand f fuel start = .ok r :=
  ⟨_, filenameLoop_spec ff root expand f fuel start h1 h2⟩

/-! ## Backend variants and resolver -/

/-- `NativeDBFilenameFinder.native_db_path`. -/
def nativeDbPath : String := "~/Library/Messages"

/-- `NativeDBFilenameFinder.native_chat_db`. -/
def nativeChatDb : String := "chat.db"

/-- `OldIPhoneBackupFilenameFinder.native_manifest`. -/
def oldManifestName : String := "Manifest.mbdb"

/-- `NewIPhoneBackupFilenameFinder.native_manifest`. -/
def newManifestName : String := "Manifest.db"

/-- `NativeDBFilenameFinder.filename`: expansion only, no rewriting. -/
def nativeFilename (expand : String → String) (f : String) : String := expand f

/-- `RelocatedDBFilenameFinder.filename`: rewrite the prefix only when `f` is
strictly longer than `native_db_path` and starts with exactly it
(`len(f) > len(p) and f[0:len(p)] == p`); otherwise expand `f` unchanged. -/
def relocFilename (relocRoot nativePath : String) (expand : String → String)
    (f : String) : String :=
  if nativePath.length < f.length ∧ strTake f nativePath.length = nativePath then
    expand (relocRoot ++ strDrop f nativePath.length)
  else
    expand f

/-- The backend bound by the resolver, as a tagged union over the four
variants; the two backup variants carry their post-construction fast-find
index and backup root. -/
inductive Backend
  | native (dbPath chatDb : String)
  | relocated (relocRoot nativePath chatDb : String)
  | oldBackup (backupPath : String) (ff : FF)
  | newBackup (backupPath : String) (ff : FF)
deriving DecidableEq, Repr

/-- The uniform `filename` interface delegated by `MagicFilenameFinder`:
Native and Relocated always produce a path; the backup variants run the
suffix-match lookup (`none` = lookup miss). -/
def backendFilename (expand : String → String) : Backend → String → Except Err (Option String)
  | .native _ _, f => .ok (some (nativeFilename expand f))
  | .relocated rr np _, f => .ok (some (relocFilename rr np expand f))
  | .oldBackup bp ff, f => backupFilename ff bp expand f
  | .newBackup bp ff, f => backupFilename ff bp expand f

/-- Which delegate `MagicFilenameFinder.__init__` selects. -/
inductive Sel
  | native
  | relocated (path : String)
  | legacyBackup (path : String)
  | modernBackup (path : String)
deriving DecidableEq, Repr

/-- The argument normalisation of `MagicFilenameFinder.__init__`: one
trailing `/` is stripped when the (non-null) path has more than one
character. -/
def stripArg : Option String → Option String
  | none => none
  | some s =>
    if 1 < s.length ∧ s.data.getLast? = some '/' then some (strDropLast s) else some s

/-- The delegate-selection cascade of `MagicFilenameFinder.__init__`:
null/empty/native-root paths select Native with no probe; otherwise the
first of `chat.db`, `Manifest.mbdb`, `Manifest.db` found (as a regular file,
after user expansion) selects Relocated, LegacyBackup, ModernBackup
respectively; otherwise fail naming the path. -/
def magicSelect (expand : String → String) (isfile : String → Bool)
    (path : Option String) : Except String Sel :=
  match stripArg path with
  | none => .ok .native
  | some p =>
    if p.length = 0 ∨ p = nativeDbPath then .ok .native
    else if isfile (expand (p ++ "/" ++ nativeChatDb)) then .ok (.relocated p)
    else if isfile (expand (p ++ "/" ++ oldManifestName)) then .ok (.legacyBackup p)
    else if isfile (expand (p ++ "/" ++ newManifestName)) then .ok (.modernBackup p)
    else .error ("Unknown repository: " ++ p)

/-! ## Concrete helpers for witnesses and counterexamples -/

/-- A concrete total decoder for 7-bit byte lists (stands in for UTF-8 in
closed instances; over such bytes they agree). -/
def asciiDec (l : List Nat) : Option String :=
  if l.all (fun b => decide (b < 128)) then
    some (String.mk (l.map (fun b => Char.ofNat b)))
  else none

/-- 2-byte big-endian encoding of a length `< 0x10000`. -/
def enc16 (n : Nat) : List Nat := [n / 256, n % 256]

/-- The initial candidate start chosen from `f[0]` (1 after a leading `/`,
else 0, i.e. Python `index` 0 or -1). -/
def startIndex (f : String) : Nat := if f.data.head? = some '/' then 1 else 0

theorem backupFilename_eq (ff : FF) (root : String) (expand : String → String)
    (f : String) (hne : f.data ≠ []) :
    backupFilename ff root expand f =
      filenameLoop ff root expand f (f.length + 1) (startIndex f) := by
  unfold backupFilename startIndex
  cases hd : f.data with
  | nil => exact absurd hd hne
  | cons c tl => simp only [List.head?_cons, Option.some.injEq]

theorem startIndex_le {f : String} (hne : f.data ≠ []) : startIndex f ≤ f.length := by
  have hpos : 0 < f.length := List.length_pos.mpr hne
  unfold startIndex
  split <;> omega

theorem candidates_sorted (f : String) (s : Nat) :
    (s :: slashStarts f s).Pairwise (· < ·) := by
  rw [List.pairwise_cons]
  constructor
  · intro b hb
    unfold slashStarts at hb
    rw [List.mem_map] at hb
    obtain ⟨q, hq, hb⟩ := hb
    have := (mem_posList.mp hq).2.1
    omega
  · exact List.Pairwise.map _ (fun a b h => by omega) (posList_sorted f '/' s)

/-! ## Claim theorems -/

theorem getint_two_bytes {data : List Nat} {o hi lo : Nat}
    (hhi : data[o]? = some hi) (hlo : data[o + 1]? = some lo) :
    getint data o 2 = .ok (hi * 256 + lo, o + 2) := by
  have hval : (0 * 256 + hi) * 256 + lo = hi * 256 + lo := by ring
  simp only [getint, getintAux, hhi, hlo, hval]

/-- C6: `readString`/`readBytes` round-trip.  Encoding a value of byte
length `< 0xFFFF` as a 2-byte big-endian length followed by the value bytes
decodes (at any offset, with any surrounding bytes) back to the value with
the offset advanced by exactly `2 + length`; `readString` returns the
decoded text, `readBytes` the raw span.  The `0xFF 0xFF` sentinel always
decodes to the empty value, advancing by exactly 2. -/
theorem c6_roundtrip :
    ∀ dec : List Nat → Option String,
      (∀ (pre suf v : List Nat) (s : String),
        v.length < 65535 → dec v = some s →
          getstring dec (pre ++ enc16 v.length ++ v ++ suf) pre.length =
            .ok (s, pre.length + 2 + v.length) ∧
          getbytes (pre ++ enc16 v.length ++ v ++ suf) pre.length =
            .ok (v, pre.length + 2 + v.length)) ∧
      (∀ (data : List Nat) (o : Nat),
        data[o]? = some 255 → data[o + 1]? = some 255 →
          getstring dec data o = .ok ("", o + 2) ∧ getbytes data o = .ok ([], o + 2)) := by
  intro dec
  constructor
  · intro pre suf v s hn hdec
    set n := v.length with hnv
    set data := pre ++ enc16 n ++ v ++ suf with hdata
    have hassoc1 : data = pre ++ (enc16 n ++ (v ++ suf)) := by
      simp [hdata, List.append_assoc]
    have hassoc2 : data = (pre ++ enc16 n) ++ (v ++ suf) := by
      simp [hdata, List.append_assoc]
    have ho : data[pre.length]? = some (n / 256) := by
      rw [hassoc1, List.getElem?_append_right (Nat.le_refl pre.length)]
      simp [enc16]
    have ho1 : data[pre.length + 1]? = some (n % 256) := by
      rw [hassoc1, List.getElem?_append_right (by omega : pre.length ≤ pre.length + 1)]
      have : pre.length + 1 - pre.length = 1 := by omega
      rw [this]
      simp [enc16]
    have hgi : getint data pre.length 2 = .ok (n, pre.length + 2) := by
      rw [getint_two_bytes ho ho1]
      have : n / 256 * 256 + n % 256 = n := by
        have := Nat.div_add_mod n 256
        omega
      rw [this]
    have hlen2 : (pre ++ enc16 n).length = pre.length + 2 := by simp [enc16]
    have hslice : (data.drop (pre.length + 2)).take n = v := by
      rw [hassoc2, ← hlen2, List.drop_left, hnv, List.take_left]
    have hbodyS : getstringBody dec data pre.length = .ok (s, pre.length + 2 + n) := by
      unfold getstringBody
      rw [hgi]
      show (match dec ((data.drop (pre.length + 2)).take n) with
            | some s => Except.ok (s, pre.length + 2 + n)
            | none => Except.error Err.invalidEncoding) = _
      rw [hslice, hdec]
    have hbodyB : getbytesBody data pre.length = .ok (v, pre.length + 2 + n) := by
      unfold getbytesBody
      rw [hgi]
      show Except.ok ((data.drop (pre.length + 2)).take n, pre.length + 2 + n) = _
      rw [hslice]
    constructor
    · by_cases hhi : n / 256 = 255
      · have hlo : ¬ n % 256 = 255 := by
          intro hc
          have := Nat.div_add_mod n 256
          omega
        simp [getstring, ho, ho1, hhi, hlo, hbodyS]
      · simp [getstring, ho, hhi, hbodyS]
    · by_cases hhi : n / 256 = 255
      · have hlo : ¬ n % 256 = 255 := by
          intro hc
          have := Nat.div_add_mod n 256
          omega
        simp [getbytes, ho, ho1, hhi, hlo, hbodyB]
      · simp [getbytes, ho, hhi, hbodyB]
  · intro data o h1 h2
    constructor
    · simp [getstring, h1, h2]
    · simp [getbytes, h1, h2]

/-- Closed instance of `c6_roundtrip`: value `[65]` (text `"A"`) framed at
offset 1 round-trips, and the sentinel decodes to empty. -/
theorem c6_witness :
    getstring asciiDec [7, 0, 1, 65, 9] 1 = .ok ("A", 4) ∧
    getbytes [7, 0, 1, 65, 9] 1 = .ok ([65], 4) ∧
    getstring asciiDec [255, 255] 0 = .ok ("", 2) ∧
    getbytes [255, 255] 0 = .ok ([], 2) := by
  have h1 := (c6_roundtrip asciiDec).1 [7] [9] [65] "A" (by decide) (by decide)
  have h2 := (c6_roundtrip asciiDec).2 [255, 255] 0 (by decide) (by decide)
  exact ⟨h1.1, h1.2, h2.1, h2.2⟩

/-- C7 counterexample.  The claim says `readUint` fails whenever
`offset+size` exceeds the buffer length, and that `readString` fails when
the announced value bytes extend past the end "rather than returning a
value".  Both are false on the code: `getint` with `size = 0` reads nothing
and returns `(0, offset)` even past the end, and `getstring` silently clamps
the value slice (Python slicing), returning the truncated text and an
offset beyond the buffer. -/
theorem c7_counterexample :
    getint ([] : List Nat) 5 0 = .ok (0, 5) ∧
    ([] : List Nat).length < 5 + 0 ∧
    getstring asciiDec [0, 5, 65] 0 = .ok ("A", 7) ∧
    ([0, 5, 65] : List Nat).length < 0 + 2 + 5 := by
  refine ⟨rfl, by decide, ?_, by decide⟩
  decide

/-- C7 amended: `readUint` returns the big-endian value of the bytes in
`[offset, offset+size)` together with `offset+size` whenever
`offset+size ≤ length` (in particular `(0, offset)` for `size = 0`, even
when `offset > length`), and fails with `TruncatedData` whenever `size ≥ 1`
and `offset+size > length`.  `readString` fails with `TruncatedData` when
its 2-byte length field extends past the end of the buffer; when only the
announced value bytes extend past the end it does not fail but returns the
decoded truncated span together with `offset+2+length` (failing with
`InvalidEncoding` only if that span does not decode). -/
theorem c7_truncation :
    (∀ (data : List Nat) (o n : Nat), o + n ≤ data.length →
       getint data o n = .ok (beVal ((data.drop o).take n), o + n)) ∧
    (∀ (data : List Nat) (o n : Nat), 1 ≤ n → data.length < o + n →
       getint data o n = .error .truncated) ∧
    (∀ (dec : List Nat → Option String) (data : List Nat) (o : Nat),
       data.length ≤ o + 1 → getstring dec data o = .error .truncated) ∧
    (∀ (dec : List Nat → Option String) (data : List Nat) (o hi lo : Nat),
       data[o]? = some hi → data[o + 1]? = some lo → ¬(hi = 255 ∧ lo = 255) →
       data.length < o + 2 + (hi * 256 + lo) →
       getstring dec data o =
         match dec (data.drop (o + 2)) with
         | some s => .ok (s, o + 2 + (hi * 256 + lo))
         | none => .error .invalidEncoding) := by
  refine ⟨getint_ok, getint_err, ?_, ?_⟩
  · intro dec data o hle
    cases hb : data[o]? with
    | none => simp [getstring, hb]
    | some b0 =>
      have ho : o < data.length := by
        by_contra hc
        rw [List.getElem?_eq_none (by omega)] at hb
        exact Option.noConfusion hb
      have hb1 : data[o + 1]? = none := List.getElem?_eq_none (by omega)
      by_cases h255 : b0 = 255
      · simp [getstring, hb, hb1, h255]
      · simp [getstring, hb, h255, getstringBody,
          getint_err data o 2 (by omega) (by omega)]
  · intro dec data o hi lo hhi hlo hne hlen
    have hgi : getint data o 2 = .ok (hi * 256 + lo, o + 2) := getint_two_bytes hhi hlo
    have hslice : (data.drop (o + 2)).take (hi * 256 + lo) = data.drop (o + 2) := by
      apply List.take_of_length_le
      rw [List.length_drop]
      omega
    have hbody : getstringBody dec data o =
        match dec (data.drop (o + 2)) with
        | some s => .ok (s, o + 2 + (hi * 256 + lo))
        | none => .error .invalidEncoding := by
      unfold getstringBody
      rw [hgi]
      show (match dec ((data.drop (o + 2)).take (hi * 256 + lo)) with
            | some s => Except.ok (s, o + 2 + (hi * 256 + lo))
            | none => Except.error Err.invalidEncoding) = _
      rw [hslice]
    by_cases hhi255 : hi = 255
    · have hlo255 : ¬ lo = 255 := fun hc => hne ⟨hhi255, hc⟩
      simp [getstring, hhi, hlo, hhi255, hlo255, hbody]
    · simp [getstring, hhi, hhi255, hbody]

/-- Closed instance of `c7_truncation`: each conjunct at a concrete input. -/
theorem c7_witness :
    getint [1, 2] 0 2 = .ok (258, 2) ∧
    getint [1, 2] 1 2 = .error .truncated ∧
    getstring asciiDec [7] 0 = .error .truncated ∧
    getstring asciiDec [0, 3, 65] 0 = .ok ("A", 5) := by
  refine ⟨?_, ?_, ?_, ?_⟩
  · have := c7_truncation.1 [1, 2] 0 2 (by decide)
    rw [this]
    decide
  · exact c7_truncation.2.1 [1, 2] 1 2 (by decide) (by decide)
  · exact c7_truncation.2.2.1 asciiDec [7] 0 (by decide)
  · have := c7_truncation.2.2.2 asciiDec [0, 3, 65] 0 0 3 (by decide) (by decide)
      (by decide) (by decide)
    rw [this]
    decide

/-- C3 counterexample.  The claim says the rewrite fires whenever `f`
begins with exactly `native_db_path`, but the code additionally requires
`len(f) > len(native_db_path)`: for `f` equal to the configured prefix
itself (here the default `~/Library/Messages`, with expansion instantiated
to the identity) the code passes `f` through unchanged instead of returning
the relocated root `/backup`. -/
theorem c3_counterexample :
    relocFilename "/backup" nativeDbPath id nativeDbPath = "~/Library/Messages" ∧
    relocFilename "/backup" nativeDbPath id nativeDbPath ≠ "/backup" := by
  constructor
  · decide
  · decide

/-- C3 amended: `filename(f)` of the Relocated backend rewrites the prefix
exactly when `f` is strictly longer than `native_db_path` and begins with
it (returning the expansion of `relocated_root ++ remainder`); for every
other input — including `f` equal to `native_db_path` itself — it returns
`f` expanded and otherwise unchanged. -/
theorem c3_relocated_rewrite (relocRoot nativePath : String)
    (expand : String → String) (f : String) :
    (nativePath.length < f.length → strTake f nativePath.length = nativePath →
       relocFilename relocRoot nativePath expand f =
         expand (relocRoot ++ strDrop f nativePath.length)) ∧
    (¬(nativePath.length < f.length ∧ strTake f nativePath.length = nativePath) →
       relocFilename relocRoot nativePath expand f = expand f) := by
  constructor
  · intro h1 h2
    simp [relocFilename, h1, h2]
  · intro h
    simp only [relocFilename, if_neg h]

/-- Closed instance of `c3_relocated_rewrite`: both branches at concrete
configurations. -/
theorem c3_witness :
    relocFilename "/b" "a" id "ab" = "/bb" ∧ relocFilename "/b" "a" id "a" = "a" := by
  constructor
  · have := (c3_relocated_rewrite "/b" "a" id "ab").1 (by decide) (by decide)
    rw [this]
    decide
  · have := (c3_relocated_rewrite "/b" "a" id "a").2 (by decide)
    rw [this]
    decide

/-- C10: through the uniform Option-valued `filename` interface, the Native
and Relocated backends are total and never produce the absence value — they
return the expanded (resp. prefix-rewritten and expanded) path for every
input — and an absence result identifies one of the two backup backends. -/
theorem c10_native_relocated_total (expand : String → String) :
    (∀ (dbPath chatDb f : String),
       backendFilename expand (.native dbPath chatDb) f = .ok (some (expand f))) ∧
    (∀ (rr np c f : String),
       backendFilename expand (.relocated rr np c) f =
         .ok (some (relocFilename rr np expand f))) ∧
    (∀ (b : Backend) (f : String), backendFilename expand b f = .ok none →
       (∃ bp ff, b = .oldBackup bp ff) ∨ (∃ bp ff, b = .newBackup bp ff)) := by
  refine ⟨fun _ _ _ => rfl, fun _ _ _ _ => rfl, ?_⟩
  intro b f h
  cases b with
  | native d c =>
    exact absurd h (by simp [backendFilename])
  | relocated rr np c =>
    exact absurd h (by simp [backendFilename])
  | oldBackup bp ff => exact Or.inl ⟨bp, ff, rfl⟩
  | newBackup bp ff => exact Or.inr ⟨bp, ff, rfl⟩

/-- Closed instance of `c10_native_relocated_total`: a miss on a concrete
legacy-backup backend is traced back to a backup constructor. -/
theorem c10_witness :
    (∃ bp ff, (Backend.oldBackup "r" [] : Backend) = .oldBackup bp ff) ∨
    (∃ bp ff, (Backend.oldBackup "r" [] : Backend) = .newBackup bp ff) :=
  (c10_native_relocated_total id).2.2 (Backend.oldBackup "r" []) "x" (by decide)

/-- C5: a manifest whose first 4 bytes are not the `mbdb` tag makes the
whole legacy-backend construction fail with `InvalidFormat` — the check
precedes the record loop, so no record is decoded and the failed
construction carries no (partial) fast-find index. -/
theorem c5_invalid_magic (dec : List Nat → Option String) (sha1 : String → String)
    (data : List Nat) (h : data.take 4 ≠ mbdbMagic) :
    oldConstruct dec sha1 data = .error .invalidFormat ∧
    load_manifest dec sha1 data = .error .invalidFormat ∧
    process_mbdb_file dec sha1 data = .error .invalidFormat := by
  have hp : process_mbdb_file dec sha1 data = .error .invalidFormat := by
    unfold process_mbdb_file
    simp [h]
  exact ⟨by simp [oldConstruct, load_manifest, hp], by simp [load_manifest, hp], hp⟩

/-- Closed instance of `c5_invalid_magic` at a 4-byte zero buffer. -/
theorem c5_witness :
    oldConstruct (fun _ => none) (fun _ => "") [0, 0, 0, 0] = .error .invalidFormat :=
  (c5_invalid_magic (fun _ => none) (fun _ => "") [0, 0, 0, 0] (by decide)).1

/-- C2: the resolver runs its checks in order on the (trailing-slash
stripped) root argument and stops at the first match, binding exactly one
delegate: null/empty/native-root arguments select Native without consulting
the filesystem probe at all (the result is the same for every probe
function); otherwise `chat.db` as a regular file selects Relocated, else
`Manifest.mbdb` LegacyBackup, else `Manifest.db` ModernBackup, else the
construction fails naming the path. -/
theorem c2_resolver_cascade (expand : String → String) (isfile : String → Bool)
    (path : Option String) :
    (stripArg path = none →
       magicSelect expand isfile path = .ok .native ∧
       ∀ isfile2, magicSelect expand isfile2 path = magicSelect expand isfile path) ∧
    (∀ p, stripArg path = some p → (p.length = 0 ∨ p = nativeDbPath) →
       magicSelect expand isfile path = .ok .native ∧
       ∀ isfile2, magicSelect expand isfile2 path = magicSelect expand isfile path) ∧
    (∀ p, stripArg path = some p → ¬(p.length = 0 ∨ p = nativeDbPath) →
       (isfile (expand (p ++ "/" ++ nativeChatDb)) = true →
          magicSelect expand isfile path = .ok (.relocated p)) ∧
       (isfile (expand (p ++ "/" ++ nativeChatDb)) = false →
        isfile (expand (p ++ "/" ++ oldManifestName)) = true →
          magicSelect expand isfile path = .ok (.legacyBackup p)) ∧
       (isfile (expand (p ++ "/" ++ nativeChatDb)) = false →
        isfile (expand (p ++ "/" ++ oldManifestName)) = false →
        isfile (expand (p ++ "/" ++ newManifestName)) = true →
          magicSelect expand isfile path = .ok (.modernBackup p)) ∧
       (isfile (expand (p ++ "/" ++ nativeChatDb)) = false →
        isfile (expand (p ++ "/" ++ oldManifestName)) = false →
        isfile (expand (p ++ "/" ++ newManifestName)) = false →
          magicSelect expand isfile path = .error ("Unknown repository: " ++ p))) := by
  refine ⟨?_, ?_, ?_⟩
  · intro h
    constructor
    · simp [magicSelect, h]
    · intro isfile2
      simp [magicSelect, h]
  · intro p hp hnat
    constructor
    · simp [magicSelect, hp, hnat]
    · intro isfile2
      simp [magicSelect, hp, hnat]
  · intro p hp hnat
    refine ⟨?_, ?_, ?_, ?_⟩
    · intro h1
      simp [magicSelect, hp, hnat, h1]
    · intro h1 h2
      simp [magicSelect, hp, hnat, h1, h2]
    · intro h1 h2 h3
      simp [magicSelect, hp, hnat, h1, h2, h3]
    · intro h1 h2 h3
      simp [magicSelect, hp, hnat, h1, h2, h3]

/-- Closed instance of `c2_resolver_cascade`: the native default, a probe
hit on `chat.db`, and the no-match failure, each at a concrete path. -/
theorem c2_witness :
    magicSelect id (fun _ => false) none = .ok .native ∧
    magicSelect id (fun _ => true) (some "/x") = .ok (.relocated "/x") ∧
    magicSelect id (fun _ => false) (some "/x") =
      .error ("Unknown repository: " ++ "/x") := by
  refine ⟨?_, ?_, ?_⟩
  · exact ((c2_resolver_cascade id (fun _ => false) none).1 (by decide)).1
  · exact ((c2_resolver_cascade id (fun _ => true) (some "/x")).2.2 "/x" (by decide)
      (by decide)).1 rfl
  · exact ((c2_resolver_cascade id (fun _ => false) (some "/x")).2.2 "/x" (by decide)
      (by decide)).2.2.2 rfl rfl rfl

/-- C9: the modern-backend index construction skips null-path rows, buckets
each remaining row under its path's character length with the exact path
text as key, stores `fileID[0:2] + '/' + fileID`, and on duplicate path
text keeps the last row processed: looking a path `p` up in bucket `L`
yields exactly the transformed fileID of the last row whose path is `p`
when `L` is `p`'s length, and nothing otherwise. -/
theorem c9_new_fast_find (rows : List (Option String × String)) (L : Nat) (p : String) :
    ffLookup (newMakeFastFind rows) L p =
      if L = p.length
      then (lastMatch rows p).map (fun id => strTake id 2 ++ "/" ++ id)
      else none := by
  rw [newMakeFastFind_eq_foldl, newFFAux]
  by_cases hL : L = p.length
  · simp only [hL, if_true]
    cases lastMatch rows p with
    | none => rfl
    | some id => rfl
  · simp only [if_neg hL]
    rfl

/-- C4: after a successful parse, every stored record sits under its own
`start_offset`, that offset has an entry in the computed-ID table holding
the SHA1-derived ID of `domain + "-" + filename`, and therefore the
annotation step always takes the table branch — the defensive
`"<nofileID>"` assignment is unreachable: every annotated record's `fileID`
is the SHA1-derived ID of its own domain and filename. -/
theorem c4_fileID_from_table (dec : List Nat → Option String)
    (sha1 : String → String) (data : List Nat) :
    (∀ db dx, process_mbdb_file dec sha1 data = .ok (db, dx) →
       ∀ o r, (o, r) ∈ db →
         r.start_offset = o ∧
         assocGet dx r.start_offset = some (sha1 (r.domain ++ "-" ++ r.filename)) ∧
         setFileID dx o r = { r with fileID := sha1 (r.domain ++ "-" ++ r.filename) }) ∧
    (∀ recs, load_manifest dec sha1 data = .ok recs →
       ∀ o r, (o, r) ∈ recs → r.fileID = sha1 (r.domain ++ "-" ++ r.filename)) := by
  have main : ∀ db dx, process_mbdb_file dec sha1 data = .ok (db, dx) →
      ∀ o r, (o, r) ∈ db →
        r.start_offset = o ∧
        assocGet dx r.start_offset = some (sha1 (r.domain ++ "-" ++ r.filename)) ∧
        setFileID dx o r = { r with fileID := sha1 (r.domain ++ "-" ++ r.filename) } := by
    intro db dx h o r hmem
    unfold process_mbdb_file at h
    split at h
    · exact Except.noConfusion h
    · have hinv := parseLoopF_inv h
        (fun o r hmem => absurd hmem (List.not_mem_nil _)) o r hmem
      refine ⟨hinv.1, hinv.1 ▸ hinv.2, ?_⟩
      unfold setFileID
      rw [hinv.2]
  refine ⟨main, ?_⟩
  intro recs h o r hmem
  unfold load_manifest at h
  cases hp : process_mbdb_file dec sha1 data with
  | error e => rw [hp] at h; exact Except.noConfusion h
  | ok pair =>
    obtain ⟨db, dx⟩ := pair
    rw [hp] at h
    injection h with hrecs
    rw [← hrecs] at hmem
    rw [List.mem_map] at hmem
    obtain ⟨⟨o2, r2⟩, hmem2, heq⟩ := hmem
    have hset := (main db dx hp o2 r2 hmem2).2.2
    injection heq with ho hr
    rw [← hr, hset]

/-- A minimal well-formed legacy manifest: the `mbdb` tag, two opaque bytes,
and one record whose five variable-length fields are all blank
(`0xFF 0xFF`) and whose numeric fields are zero. -/
def mbdbSample : List Nat :=
  mbdbMagic ++ [5, 0] ++
  [255, 255, 255, 255, 255, 255, 255, 255, 255, 255] ++
  [0, 0] ++ List.replicate 28 0 ++ List.replicate 8 0 ++ [0, 0]

/-- The record parsed from `mbdbSample` at offset 6. -/
def sampleRec : Record :=
  { start_offset := 6, domain := "", filename := "", linktarget := [],
    datahash := [], unknown1 := [], mode := 0, unknown2 := 0, unknown3 := 0,
    userid := 0, groupid := 0, mtime := 0, atime := 0, ctime := 0,
    filelen := 0, flag := 0, numprops := 0, properties := [], fileID := "" }

/-- Closed instance of `c4_fileID_from_table` on `mbdbSample`. -/
theorem c4_witness :
    process_mbdb_file (fun _ => none) (fun _ => "h") mbdbSample =
      .ok ([(6, sampleRec)], [(6, "h")]) ∧
    assocGet [(6, "h")] sampleRec.start_offset = some "h" ∧
    setFileID [(6, "h")] 6 sampleRec = { sampleRec with fileID := "h" } := by
  have hp : process_mbdb_file (fun _ => none) (fun _ => "h") mbdbSample =
      .ok ([(6, sampleRec)], [(6, "h")]) := by decide
  have h := (c4_fileID_from_table (fun _ => none) (fun _ => "h") mbdbSample).1
    [(6, sampleRec)] [(6, "h")] hp 6 sampleRec (by decide)
  exact ⟨hp, h.2.1, h.2.2⟩

/-- The two-entry example index of the claim:
`{"Library/SMS/sms.db": "ID1"}` bucketed under length 18. -/
def ffSample : FF := [(18, [("Library/SMS/sms.db", "ID1")])]

/-- C1 counterexample.  The claim quantifies over every logical path; on
the empty path the claimed search would report absence (the initial index
is -1, the length-0 suffix has no bucket hit here, and no `/` remains), but
the code evaluates `f[0]` before the loop and raises `IndexError`. -/
theorem c1_counterexample :
    backupFilename ffSample "root" id "" = .error .truncated ∧
    backupFilename ffSample "root" id "" ≠ .ok none := by
  exact ⟨rfl, by decide⟩

/-- C1 amended (restricted to non-empty paths): for every backup backend
and every non-empty logical path `f`, `filename(f)` equals the first-hit
search over the candidate starts — the initial start (1 after a leading
`/`, else 0) followed by one past each later `/` — where a candidate `s`
hits when the bucket for length `len(f) - s` maps the exact suffix `f[s:]`
to a value `v`, producing the expanded `backup_root + '/' + v`, and the
search is absent when no candidate hits; the candidate starts are strictly
increasing, so the suffixes are tried longest first.  In particular, on the
index built from `{"Library/SMS/sms.db": "ID1"}` the two example lookups
behave as claimed. -/
theorem c1_suffix_search (ff : FF) (root : String) (expand : String → String) :
    (∀ f : String, f.data ≠ [] →
       backupFilename ff root expand f =
         .ok (searchSpec ff root expand f (startIndex f :: slashStarts f (startIndex f))) ∧
       (startIndex f :: slashStarts f (startIndex f)).Pairwise (· < ·)) ∧
    backupFilename ffSample root expand "/var/mobile/Library/SMS/sms.db" =
      .ok (some (expand (root ++ "/" ++ "ID1"))) ∧
    backupFilename ffSample root expand "Library/SMS/other.db" = .ok none := by
  refine ⟨?_, rfl, rfl⟩
  intro f hne
  constructor
  · rw [backupFilename_eq ff root expand f hne]
    exact filenameLoop_spec ff root expand f (f.length + 1) (startIndex f)
      (startIndex_le hne) (by omega)
  · exact candidates_sorted f (startIndex f)

/-- Closed instance of `c1_suffix_search` on a concrete two-component path. -/
theorem c1_witness :
    backupFilename ffSample "r" id "a/b" =
      .ok (searchSpec ffSample "r" id "a/b"
        (startIndex "a/b" :: slashStarts "a/b" (startIndex "a/b"))) ∧
    (startIndex "a/b" :: slashStarts "a/b" (startIndex "a/b")).Pairwise (· < ·) :=
  (c1_suffix_search ffSample "r" id).1 "a/b" (by decide)

/-- C8 counterexample.  The claim says a `filename` lookup never throws for
all inputs; on the empty string the code raises `IndexError` at `f[0]`
before the search loop runs (here on a backend with an empty index). -/
theorem c8_counterexample :
    backupFilename [] "r" id "" = .error .truncated := rfl

/-- C8 amended (restricted to non-empty inputs): for every constructed
backup backend and every non-empty input, `filename` returns normally — a
path on a hit, the explicit absence value on a miss — and never throws. -/
theorem c8_lookup_miss_no_throw (ff : FF) (root : String) (expand : String → String)
    (f : String) (hne : f.data ≠ []) :
    ∃ r : Option String, backupFilename ff root expand f = .ok r := by
  rw [backupFilename_eq ff root expand f hne]
  exact filenameLoop_ok ff root expand f (f.length + 1) (startIndex f)
    (startIndex_le hne) (by omega)

/-- Closed instance of `c8_lookup_miss_no_throw` on an empty index. -/
theorem c8_witness : ∃ r : Option String, backupFilename [] "r" id "x" = .ok r :=
  c8_lookup_miss_no_throw [] "r" id "x" (by decide)
